import Mathlib

/-!
Verification of the multi-stop route optimizer of the logiq repository,
file `src/backend/utils/geo_operations.py`, class `LocationServices`:
the methods `_get_distance_matrix`, `_held_karp_algorithm` (with its inner
memoized `dp`) and `optimize_route`.

Modelling choices, kept uniform through the file:
* Python floats carrying distances (including `float('inf')`) are modelled
  as `WithTop ℚ`: addition absorbs `⊤` exactly as IEEE infinity absorbs
  finite values, and `x < ⊤` holds for finite `x` while `⊤ < ⊤` fails,
  matching Python's `<` on floats.
* The bitmask `visited` (an arbitrary-precision Python int used only
  through `1 << i` membership tests, `|`, `^` with a single bit and
  equality with `1 << start`) is modelled as the `Finset ℕ` of its set
  bits; `visited ^ (1 << last)` becomes `toggle visited last`.
* The memo dictionary is an association list whose keys are inserted only
  when absent, exactly as the Python code checks `in memo` before storing.
* The network call of `_get_distance_matrix` is out of scope ( §6 of the
  spec); the function is modelled on the parsed response `data['rows']`,
  each element being a record with a `status` string and a numeric
  distance value.  An exception escaping the matrix build is modelled by
  an `Except` argument to `optimize_route`, whose `try/except` becomes a
  `match`.  A Python `IndexError` on `addresses[i]` is modelled by the
  `Option`-valued index `pyGet` (which also honours Python's negative
  indexing), failure flowing to the same `except` branch.
* The `while current != -1` reconstruction loop is made total by a fuel
  argument; `held_karp_algorithm` supplies fuel `n + 1`, an upper bound
  (proved below through `recon_chain`) on the iterations the loop can
  perform on the memo tables `dp` produces.
-/

namespace Logiq

/-- Distance values: Python floats together with `float('inf')`. -/
abbrev Dist := WithTop ℚ

/-- One element of the parsed Distance Matrix API response: its `status`
string and the numeric `element['distance']['value']`. -/
structure DMElement where
  status : String
  value : ℚ
deriving DecidableEq

instance : Inhabited DMElement := ⟨⟨"", 0⟩⟩

/-- Embeds `LocationServices._get_distance_matrix`.  The loop over
`data['rows']` appends `element['distance']['value']` when the element
status is `'OK'` and `float('inf')` otherwise; the address list only
feeds the request URL, so the function is a map over the response rows. -/
def get_distance_matrix (rows : List (List DMElement)) : List (List Dist) :=
  rows.map fun row => row.map fun e => if e.status = "OK" then (e.value : Dist) else ⊤

/-- Matrix access `distance_matrix[i][j]`.  All accesses performed by the
algorithm on the matrices it is run on are in range, so the out-of-range
default is never exercised by the theorems below. -/
def ent (dm : List (List Dist)) (i j : ℕ) : Dist := (dm.getD i []).getD j 0

/-- The bitmask update `visited ^ (1 << last)`: remove `last` from the
set of set bits when present, insert it otherwise. -/
def toggle (v : Finset ℕ) (l : ℕ) : Finset ℕ := if l ∈ v then v.erase l else insert l v

/-- Termination measure for the memoized recursion `dp`: the recursion
removes `last` from `visited` when present (the only reachable case) and
otherwise first inserts it, after which it only shrinks. -/
def muDp (v : Finset ℕ) (l : ℕ) : ℕ := v.card + (if l ∈ v then 0 else 2)

lemma muDp_toggle_lt {v : Finset ℕ} {l c : ℕ} (hc : c ∈ v) (hne : c ≠ l) :
    muDp (toggle v l) c < muDp v l := by
  unfold muDp toggle
  by_cases hl : l ∈ v
  · have hcm : c ∈ v.erase l := Finset.mem_erase.mpr ⟨hne, hc⟩
    have hpos : 1 ≤ v.card := Finset.card_pos.mpr ⟨l, hl⟩
    rw [if_pos hl, if_pos hcm, if_pos hl, Finset.card_erase_of_mem hl]
    omega
  · have hcm : c ∈ insert l v := Finset.mem_insert.mpr (Or.inr hc)
    rw [if_neg hl, if_pos hcm, if_neg hl, Finset.card_insert_of_not_mem hl]
    omega

lemma measure_step {a b n len : ℕ} (h : a < b) :
    a * (n + 2) + (n + 1) < b * (n + 2) + len := by
  have h2 : (a + 1) * (n + 2) ≤ b * (n + 2) := Nat.mul_le_mul_right _ h
  have h3 : (a + 1) * (n + 2) = a * (n + 2) + (n + 2) := by ring
  omega

/-- The memo dictionary `memo` of `_held_karp_algorithm`: keys are the
pairs `(visited, last)`, values the stored `(min_cost, prev_city)`. -/
abbrev Memo := List ((Finset ℕ × ℕ) × (Dist × Int))

/-- Dictionary lookup `memo[(visited, last)]` / `(visited, last) in memo`. -/
def lookupMemo (memo : Memo) (k : Finset ℕ × ℕ) : Option (Dist × Int) :=
  match memo with
  | [] => none
  | (k', val) :: rest => if k' = k then some val else lookupMemo rest k

/-- The dictionary store `memo[(visited, last)] = (min_cost, prev_city)`
followed by `return min_cost, prev_city`. -/
def store (k : Finset ℕ × ℕ) (r : Memo × (Dist × Int)) : Memo × (Dist × Int) :=
  ((k, r.2) :: r.1, r.2)

/-- The loop `for city in range(n)` inside `dp`, accumulating
`(min_cost, prev_city)` from the initial `(float('inf'), -1)`; a
candidate replaces the incumbent only on a strictly smaller total cost.
The recursive call of `dp` is abstracted as the argument `dpf` so that
the loop is structurally recursive on the remaining cities. -/
def dpFold (dm : List (List Dist)) (dpf : Memo → Finset ℕ → ℕ → Memo × (Dist × Int))
    (v : Finset ℕ) (l : ℕ) : List ℕ → Memo → Dist × Int → Memo × (Dist × Int)
  | [], memo, best => (memo, best)
  | city :: rest, memo, best =>
      if city ∈ v ∧ city ≠ l then
        let p := dpf memo (toggle v l) city
        let total := p.2.1 + ent dm city l
        if total < best.1 then dpFold dm dpf v l rest p.1 (total, Int.ofNat city)
        else dpFold dm dpf v l rest p.1 best
      else dpFold dm dpf v l rest memo best

/-- The inner function `dp(visited, last)` of `_held_karp_algorithm`,
with the memo dictionary threaded through explicitly.  The base case
`visited == (1 << start_idx)` returns `distance_matrix[last][start_idx]`
with recorded predecessor `start_idx` and does not memoize.  A fuel
argument makes the recursion structural; by `muDp_toggle_lt` every
recursive call strictly decreases `muDp`, so any fuel above `muDp v l`
is never exhausted (`dp_correct` below), and `held_karp_algorithm`
supplies such a fuel. -/
def dp (dm : List (List Dist)) (s n : ℕ) : ℕ → Memo → Finset ℕ → ℕ → Memo × (Dist × Int)
  | 0, memo, _, _ => (memo, (⊤, -1))
  | fuel + 1, memo, v, l =>
      if v = {s} then (memo, (ent dm l s, Int.ofNat s))
      else
        match lookupMemo memo (v, l) with
        | some val => (memo, val)
        | none => store (v, l) (dpFold dm (dp dm s n fuel) v l (List.range n) memo (⊤, -1))

/-- The top-level loop of `_held_karp_algorithm`:
`for city in range(n): if city != start_idx: cost, _ = dp(all_visited, city)`,
tracking `(min_total, last_city)` from `(float('inf'), -1)`. -/
def topLoop (dm : List (List Dist)) (s n : ℕ) (all : Finset ℕ) :
    List ℕ → Memo → Dist × Int → Memo × (Dist × Int)
  | [], memo, best => (memo, best)
  | city :: rest, memo, best =>
      if city ≠ s then
        let p := dp dm s n (n + 1) memo all city
        if p.2.1 < best.1 then topLoop dm s n all rest p.1 (p.2.1, Int.ofNat city)
        else topLoop dm s n all rest p.1 best
      else topLoop dm s n all rest memo best

/-- The route-reconstruction loop `while current != -1` of
`_held_karp_algorithm`.  Each iteration appends `current`, reads
`memo.get((visited, current), (0, -1))`, stops when the recorded
predecessor is `-1`, and otherwise toggles `current` out of `visited`
and moves to the predecessor.  A fuel argument makes the loop total;
`current` can only be `-1` or a natural number on the memo tables
produced by `dp`, so the key `(visited, current.toNat)` is the key the
Python dictionary is consulted for. -/
def reconLoop (memo : Memo) : ℕ → Finset ℕ → Int → List Int → List Int
  | 0, _, _, route => route
  | fuel + 1, visited, current, route =>
      if current = -1 then route
      else
        let route' := route ++ [current]
        let pr := (lookupMemo memo (visited, current.toNat)).getD (0, -1)
        if pr.2 = -1 then route'
        else reconLoop memo fuel (toggle visited current.toNat) pr.2 route'

/-- Embeds `LocationServices._held_karp_algorithm`: run the top-level
loop over all candidate final cities, then walk the memo backwards and
reverse the collected route. -/
def held_karp_algorithm (dm : List (List Dist)) (start_idx : ℕ := 0) :
    List Int × Dist :=
  let n := dm.length
  let all_visited : Finset ℕ := Finset.range n
  let r := topLoop dm start_idx n all_visited (List.range n) [] (⊤, -1)
  let route := reconLoop r.1 (n + 1) all_visited r.2.2 []
  (route.reverse, r.2.1)

/-- Python list indexing `addresses[i]`, `Option`-valued: out-of-range
access raises `IndexError` (modelled by `none`), and a negative index
`i` with `0 ≤ i + len` addresses from the end. -/
def pyGet (xs : List String) (i : Int) : Option String :=
  if 0 ≤ i then xs[i.toNat]?
  else if 0 ≤ i + xs.length then xs[(i + xs.length).toNat]? else none

/-- The unit conversion `float(distance / 1000)` of `optimize_route`,
with `inf / 1000 = inf`. -/
def kmOf (d : Dist) : Dist := WithTop.map (fun q : ℚ => q / 1000) d

/-- The dictionary returned by `optimize_route`: keys `status`,
`optimized_route` and `"distance (in km)"`. -/
structure RouteResult where
  status : String
  optimized_route : List String
  distance_km : Dist
deriving DecidableEq

/-- Embeds `LocationServices.optimize_route`.  The collaborator response
(or the exception the batch lookup raises) is the `response` argument;
the `try/except Exception` block becomes the `match`, and an
`IndexError` while mapping route indices back to addresses flows to the
same `except` branch via `pyGet`. -/
def optimize_route (addresses : List String)
    (response : Except String (List (List DMElement))) : RouteResult :=
  let n := addresses.length
  if n ≤ 1 then ⟨"success", addresses, 0⟩
  else
    match response with
    | .error _ => ⟨"error", addresses, 0⟩
    | .ok rows =>
        let distance_matrix := get_distance_matrix rows
        let rd := held_karp_algorithm distance_matrix 0
        match rd.1.mapM (pyGet addresses) with
        | some optimized_route => ⟨"success", optimized_route, kmOf rd.2⟩
        | none => ⟨"error", addresses, 0⟩

/-- Cost of the edge path `a :: p` through the matrix `dm`. -/
def pathCost (dm : List (List Dist)) : ℕ → List ℕ → Dist
  | _, [] => 0
  | a, b :: rest => ent dm a b + pathCost dm b rest

/-- Total weight of the closed tour visiting `t` in order and returning
to its head, closing edge included (the Hamiltonian-cycle cost the spec
speaks about). -/
def tourCost (dm : List (List Dist)) : List ℕ → Dist
  | [] => 0
  | a :: rest => pathCost dm a (rest ++ [a])

/-! ### A memo-free model of `dp`

`dpPure` recomputes what `dp` memoizes; `dp_correct` below proves that,
on coherent memo tables, `dp` returns exactly `dpPure` and only ever
stores `dpPure` values. -/

mutual

/-- The value `dp(visited, last)` computes, memoization removed. -/
def dpPure (dm : List (List Dist)) (s n : ℕ) (v : Finset ℕ) (l : ℕ) : Dist × Int :=
  if v = {s} then (ent dm l s, Int.ofNat s)
  else dpPureFold dm s n v l (List.range n) (⊤, -1)
termination_by muDp v l * (n + 2) + (n + 1)
decreasing_by
  simp only [List.length_range]
  omega

/-- The candidate loop of `dpPure`, mirroring `dpFold` without the memo. -/
def dpPureFold (dm : List (List Dist)) (s n : ℕ) (v : Finset ℕ) (l : ℕ) :
    List ℕ → Dist × Int → Dist × Int
  | [], best => best
  | city :: rest, best =>
      if h : city ∈ v ∧ city ≠ l then
        let total := (dpPure dm s n (toggle v l) city).1 + ent dm city l
        if total < best.1 then dpPureFold dm s n v l rest (total, Int.ofNat city)
        else dpPureFold dm s n v l rest best
      else dpPureFold dm s n v l rest best
termination_by cities _ => muDp v l * (n + 2) + cities.length
decreasing_by
  · exact measure_step (muDp_toggle_lt h.1 h.2)
  · simp only [List.length_cons]; omega
  · simp only [List.length_cons]; omega
  · simp only [List.length_cons]; omega

end

/-- The strict-improvement selection fold shared by the candidate loops:
a pair replaces the incumbent `(cost, index)` only when its cost is
strictly smaller. -/
def selectFold : List (Dist × Int) → Dist × Int → Dist × Int
  | [], best => best
  | p :: rest, best => if p.1 < best.1 then selectFold rest p else selectFold rest best

/-- The stream of candidates `(total_cost, city)` that the loop of
`dp(visited, last)` inspects, in iteration order. -/
def candTotals (dm : List (List Dist)) (s n : ℕ) (v : Finset ℕ) (l : ℕ)
    (cities : List ℕ) : List (Dist × Int) :=
  (cities.filter fun c => decide (c ∈ v ∧ c ≠ l)).map
    fun c => ((dpPure dm s n (toggle v l) c).1 + ent dm c l, Int.ofNat c)

/-- The top-level loop of `_held_karp_algorithm`, memoization removed. -/
def pureTop (dm : List (List Dist)) (s n : ℕ) (all : Finset ℕ) :
    List ℕ → Dist × Int → Dist × Int
  | [], best => best
  | city :: rest, best =>
      if city ≠ s then
        if (dpPure dm s n all city).1 < best.1 then
          pureTop dm s n all rest ((dpPure dm s n all city).1, Int.ofNat city)
        else pureTop dm s n all rest best
      else pureTop dm s n all rest best

/-- Lookup-preservation between memo tables: every binding visible in
`m` is still visible in `m'`. -/
def MemoSub (m m' : Memo) : Prop :=
  ∀ k val, lookupMemo m k = some val → lookupMemo m' k = some val

/-- Coherence invariant of the memo tables produced by `dp`: every
binding stores the memo-free value, no binding is for a base-case state
`({start}, _)`, and together with each binding the memo also holds the
sub-states its candidate loop consulted (the closure used by the route
reconstruction). -/
def Good (dm : List (List Dist)) (s n : ℕ) (memo : Memo) : Prop :=
  ∀ k val, lookupMemo memo k = some val →
    val = dpPure dm s n k.1 k.2 ∧ k.1 ≠ ({s} : Finset ℕ) ∧
    ∀ c, c < n → c ∈ k.1 → c ≠ k.2 → toggle k.1 k.2 ≠ ({s} : Finset ℕ) →
      (lookupMemo memo (toggle k.1 k.2, c)).isSome = true

/-! ### Unfolding and bookkeeping lemmas -/

section Unfold

variable {dm : List (List Dist)} {s n : ℕ} {v : Finset ℕ} {l : ℕ} {memo : Memo}
variable {fuel city : ℕ} {rest : List ℕ} {best val : Dist × Int}

lemma dpPure_base (h : v = {s}) : dpPure dm s n v l = (ent dm l s, Int.ofNat s) := by
  unfold dpPure
  simp [h]

lemma dpPure_rec (h : v ≠ {s}) :
    dpPure dm s n v l = dpPureFold dm s n v l (List.range n) (⊤, -1) := by
  unfold dpPure
  simp [h]

lemma dpPureFold_nil : dpPureFold dm s n v l [] best = best := by
  unfold dpPureFold
  rfl

lemma dpPureFold_cons_pos (h : city ∈ v ∧ city ≠ l) :
    dpPureFold dm s n v l (city :: rest) best =
      (if (dpPure dm s n (toggle v l) city).1 + ent dm city l < best.1
       then dpPureFold dm s n v l rest
         ((dpPure dm s n (toggle v l) city).1 + ent dm city l, Int.ofNat city)
       else dpPureFold dm s n v l rest best) := by
  rw [dpPureFold]
  simp [h]

lemma dpPureFold_cons_neg (h : ¬(city ∈ v ∧ city ≠ l)) :
    dpPureFold dm s n v l (city :: rest) best = dpPureFold dm s n v l rest best := by
  rw [dpPureFold]
  simp [h]

lemma dp_succ_base (h : v = {s}) :
    dp dm s n (fuel + 1) memo v l = (memo, (ent dm l s, Int.ofNat s)) := by
  rw [dp]
  simp [h]

lemma dp_succ_hit (h : v ≠ {s}) (hl : lookupMemo memo (v, l) = some val) :
    dp dm s n (fuel + 1) memo v l = (memo, val) := by
  rw [dp]
  simp [h, hl]

lemma dp_succ_miss (h : v ≠ {s}) (hl : lookupMemo memo (v, l) = none) :
    dp dm s n (fuel + 1) memo v l =
      store (v, l) (dpFold dm (dp dm s n fuel) v l (List.range n) memo (⊤, -1)) := by
  rw [dp]
  simp [h, hl]

variable {dpf : Memo → Finset ℕ → ℕ → Memo × (Dist × Int)}

lemma dpFold_nil : dpFold dm dpf v l [] memo best = (memo, best) := by
  rw [dpFold]

lemma dpFold_cons_pos (h : city ∈ v ∧ city ≠ l) :
    dpFold dm dpf v l (city :: rest) memo best =
      (if (dpf memo (toggle v l) city).2.1 + ent dm city l < best.1
       then dpFold dm dpf v l rest (dpf memo (toggle v l) city).1
         ((dpf memo (toggle v l) city).2.1 + ent dm city l, Int.ofNat city)
       else dpFold dm dpf v l rest (dpf memo (toggle v l) city).1 best) := by
  rw [dpFold]
  simp [h]

lemma dpFold_cons_neg (h : ¬(city ∈ v ∧ city ≠ l)) :
    dpFold dm dpf v l (city :: rest) memo best = dpFold dm dpf v l rest memo best := by
  rw [dpFold]
  simp [h]

lemma topLoop_nil {all : Finset ℕ} : topLoop dm s n all [] memo best = (memo, best) := by
  rw [topLoop]

lemma topLoop_cons_pos {all : Finset ℕ} (h : city ≠ s) :
    topLoop dm s n all (city :: rest) memo best =
      (if (dp dm s n (n + 1) memo all city).2.1 < best.1
       then topLoop dm s n all rest (dp dm s n (n + 1) memo all city).1
         ((dp dm s n (n + 1) memo all city).2.1, Int.ofNat city)
       else topLoop dm s n all rest (dp dm s n (n + 1) memo all city).1 best) := by
  rw [topLoop]
  simp [h]

lemma topLoop_cons_neg {all : Finset ℕ} (h : ¬city ≠ s) :
    topLoop dm s n all (city :: rest) memo best = topLoop dm s n all rest memo best := by
  rw [topLoop]
  simp [h]

lemma lookupMemo_nil {k : Finset ℕ × ℕ} : lookupMemo [] k = none := rfl

lemma lookupMemo_cons {k' k : Finset ℕ × ℕ} {val' : Dist × Int} {rest' : Memo} :
    lookupMemo ((k', val') :: rest') k = if k' = k then some val' else lookupMemo rest' k := rfl

lemma memoSub_refl : MemoSub memo memo := fun _ _ h => h

lemma memoSub_trans {m₁ m₂ m₃ : Memo} (h₁ : MemoSub m₁ m₂) (h₂ : MemoSub m₂ m₃) :
    MemoSub m₁ m₃ := fun k val h => h₂ k val (h₁ k val h)

lemma memoSub_isSome {m₁ m₂ : Memo} {k : Finset ℕ × ℕ} (h : MemoSub m₁ m₂)
    (hk : (lookupMemo m₁ k).isSome = true) : (lookupMemo m₂ k).isSome = true := by
  cases hl : lookupMemo m₁ k with
  | none => rw [hl] at hk; exact absurd hk (by simp)
  | some val => rw [h k val hl]; rfl

lemma good_nil : Good dm s n [] := by
  intro k val h
  exact absurd h (by simp [lookupMemo_nil])

end Unfold

lemma lookupMemo_cons_isSome {k' : Finset ℕ × ℕ} {val' : Dist × Int} {m : Memo}
    {k : Finset ℕ × ℕ} (h : (lookupMemo m k).isSome = true) :
    (lookupMemo ((k', val') :: m) k).isSome = true := by
  rw [lookupMemo_cons]
  by_cases hk : k' = k
  · rw [if_pos hk]; rfl
  · rw [if_neg hk]; exact h

/-- The candidate loop of `dp` computes, on a coherent memo, exactly the
memo-free loop value, preserves coherence, only extends the memo, and
leaves every consulted sub-state present in the memo. -/
theorem dpFold_correct (dm : List (List Dist)) (s n : ℕ)
    (dpf : Memo → Finset ℕ → ℕ → Memo × (Dist × Int)) (v : Finset ℕ) (l : ℕ)
    (hdpf : ∀ memo c, c ∈ v → c ≠ l → Good dm s n memo →
      (dpf memo (toggle v l) c).2 = dpPure dm s n (toggle v l) c ∧
      Good dm s n (dpf memo (toggle v l) c).1 ∧
      MemoSub memo (dpf memo (toggle v l) c).1 ∧
      (toggle v l ≠ {s} →
        (lookupMemo (dpf memo (toggle v l) c).1 (toggle v l, c)).isSome = true)) :
    ∀ (cities : List ℕ) (memo : Memo) (best : Dist × Int), Good dm s n memo →
      (dpFold dm dpf v l cities memo best).2 = dpPureFold dm s n v l cities best ∧
      Good dm s n (dpFold dm dpf v l cities memo best).1 ∧
      MemoSub memo (dpFold dm dpf v l cities memo best).1 ∧
      (∀ c ∈ cities, c ∈ v → c ≠ l → toggle v l ≠ {s} →
        (lookupMemo (dpFold dm dpf v l cities memo best).1 (toggle v l, c)).isSome = true) := by
  intro cities
  induction cities with
  | nil =>
      intro memo best hG
      refine ⟨?_, ?_, memoSub_refl, ?_⟩
      · rw [dpFold_nil, dpPureFold_nil]
      · rw [dpFold_nil]; exact hG
      · intro c hc
        exact absurd hc (List.not_mem_nil c)
  | cons city rest IH =>
      intro memo best hG
      by_cases h : city ∈ v ∧ city ≠ l
      · obtain ⟨hv1, hGp, hSp, hPres⟩ := hdpf memo city h.1 h.2 hG
        rw [dpFold_cons_pos h, dpPureFold_cons_pos h, hv1]
        by_cases hlt : (dpPure dm s n (toggle v l) city).1 + ent dm city l < best.1
        · rw [if_pos hlt, if_pos hlt]
          obtain ⟨r1, r2, r3, r4⟩ := IH (dpf memo (toggle v l) city).1
            ((dpPure dm s n (toggle v l) city).1 + ent dm city l, Int.ofNat city) hGp
          refine ⟨r1, r2, memoSub_trans hSp r3, ?_⟩
          intro c hc hcv hcl hne
          rcases List.mem_cons.mp hc with rfl | hc'
          · exact memoSub_isSome r3 (hPres hne)
          · exact r4 c hc' hcv hcl hne
        · rw [if_neg hlt, if_neg hlt]
          obtain ⟨r1, r2, r3, r4⟩ := IH (dpf memo (toggle v l) city).1 best hGp
          refine ⟨r1, r2, memoSub_trans hSp r3, ?_⟩
          intro c hc hcv hcl hne
          rcases List.mem_cons.mp hc with rfl | hc'
          · exact memoSub_isSome r3 (hPres hne)
          · exact r4 c hc' hcv hcl hne
      · rw [dpFold_cons_neg h, dpPureFold_cons_neg h]
        obtain ⟨r1, r2, r3, r4⟩ := IH memo best hG
        refine ⟨r1, r2, r3, ?_⟩
        intro c hc hcv hcl hne
        rcases List.mem_cons.mp hc with rfl | hc'
        · exact absurd ⟨hcv, hcl⟩ h
        · exact r4 c hc' hcv hcl hne

/-- Memoization is sound: with fuel above the measure `muDp` and a
coherent memo, `dp` returns the memo-free value `dpPure`, preserves
coherence, only extends the memo, and (off the base case) leaves its own
state recorded.  In particular fuel is never exhausted. -/
theorem dp_correct (dm : List (List Dist)) (s n : ℕ) :
    ∀ (fuel : ℕ) (v : Finset ℕ) (l : ℕ) (memo : Memo), muDp v l < fuel → Good dm s n memo →
      (dp dm s n fuel memo v l).2 = dpPure dm s n v l ∧
      Good dm s n (dp dm s n fuel memo v l).1 ∧
      MemoSub memo (dp dm s n fuel memo v l).1 ∧
      (v ≠ ({s} : Finset ℕ) →
        (lookupMemo (dp dm s n fuel memo v l).1 (v, l)).isSome = true) := by
  intro fuel
  induction fuel with
  | zero => intro v l memo hmu hG; exact absurd hmu (Nat.not_lt_zero _)
  | succ fuel IH =>
      intro v l memo hmu hG
      by_cases hb : v = {s}
      · rw [dp_succ_base hb, dpPure_base hb]
        exact ⟨rfl, hG, memoSub_refl, fun hcon => absurd hb hcon⟩
      · cases hl : lookupMemo memo (v, l) with
        | some val =>
            rw [dp_succ_hit hb hl]
            obtain ⟨hv, _, _⟩ := hG (v, l) val hl
            exact ⟨hv, hG, memoSub_refl, fun _ => by rw [hl]; rfl⟩
        | none =>
            have hfuel : muDp v l ≤ fuel := Nat.lt_succ_iff.mp hmu
            have hdpf : ∀ memo' c, c ∈ v → c ≠ l → Good dm s n memo' →
                (dp dm s n fuel memo' (toggle v l) c).2 = dpPure dm s n (toggle v l) c ∧
                Good dm s n (dp dm s n fuel memo' (toggle v l) c).1 ∧
                MemoSub memo' (dp dm s n fuel memo' (toggle v l) c).1 ∧
                (toggle v l ≠ ({s} : Finset ℕ) →
                  (lookupMemo (dp dm s n fuel memo' (toggle v l) c).1
                    (toggle v l, c)).isSome = true) :=
              fun memo' c hc hcl hG' =>
                IH (toggle v l) c memo'
                  (lt_of_lt_of_le (muDp_toggle_lt hc hcl) hfuel) hG'
            obtain ⟨f1, f2, f3, f4⟩ :=
              dpFold_correct dm s n (dp dm s n fuel) v l hdpf (List.range n) memo (⊤, -1) hG
            rw [dp_succ_miss hb hl]
            refine ⟨?_, ?_, ?_, ?_⟩
            · show (store (v, l) _).2 = _
              rw [store, dpPure_rec hb]
              exact f1
            · intro k val hk
              rw [store] at hk
              rw [lookupMemo_cons] at hk
              by_cases hkey : ((v, l) : Finset ℕ × ℕ) = k
              · rw [if_pos hkey] at hk
                injection hk with hval
                subst hkey
                refine ⟨?_, hb, ?_⟩
                · rw [← hval, f1, dpPure_rec hb]
                · intro c h1 h2 h3 h4
                  have hmem : c ∈ List.range n := List.mem_range.mpr h1
                  exact lookupMemo_cons_isSome (f4 c hmem h2 h3 h4)
              · rw [if_neg hkey] at hk
                obtain ⟨g1, g2, g3⟩ := f2 k val hk
                refine ⟨g1, g2, fun c h1 h2 h3 h4 => ?_⟩
                exact lookupMemo_cons_isSome (g3 c h1 h2 h3 h4)
            · intro k val hk
              rw [store, lookupMemo_cons]
              by_cases hkey : ((v, l) : Finset ℕ × ℕ) = k
              · subst hkey
                rw [hk] at hl
                exact absurd hl (by simp)
              · rw [if_neg hkey]
                exact f3 k val hk
            · intro _
              rw [store, lookupMemo_cons, if_pos rfl]
              rfl

section PureTop

variable {dm : List (List Dist)} {s n city : ℕ} {all : Finset ℕ} {rest : List ℕ}
variable {best : Dist × Int}

lemma pureTop_nil : pureTop dm s n all [] best = best := by
  rw [pureTop]

lemma pureTop_cons_pos (h : city ≠ s) :
    pureTop dm s n all (city :: rest) best =
      (if (dpPure dm s n all city).1 < best.1
       then pureTop dm s n all rest ((dpPure dm s n all city).1, Int.ofNat city)
       else pureTop dm s n all rest best) := by
  rw [pureTop]
  simp [h]

lemma pureTop_cons_neg (h : ¬city ≠ s) :
    pureTop dm s n all (city :: rest) best = pureTop dm s n all rest best := by
  rw [pureTop]
  simp [h]

end PureTop

/-- The top-level loop computes, on a coherent memo, the memo-free fold
`pureTop`, and leaves every evaluated state `(all, city)` in the memo. -/
theorem topLoop_correct (dm : List (List Dist)) (s n : ℕ) (all : Finset ℕ) :
    ∀ (cities : List ℕ) (memo : Memo) (best : Dist × Int),
      (∀ c ∈ cities, c ≠ s → muDp all c < n + 1) → Good dm s n memo →
      (topLoop dm s n all cities memo best).2 = pureTop dm s n all cities best ∧
      Good dm s n (topLoop dm s n all cities memo best).1 ∧
      MemoSub memo (topLoop dm s n all cities memo best).1 ∧
      (∀ c ∈ cities, c ≠ s → all ≠ ({s} : Finset ℕ) →
        (lookupMemo (topLoop dm s n all cities memo best).1 (all, c)).isSome = true) := by
  intro cities
  induction cities with
  | nil =>
      intro memo best _ hG
      refine ⟨?_, ?_, memoSub_refl, ?_⟩
      · rw [topLoop_nil, pureTop_nil]
      · rw [topLoop_nil]; exact hG
      · intro c hc
        exact absurd hc (List.not_mem_nil c)
  | cons city rest IH =>
      intro memo best hmu hG
      by_cases h : city ≠ s
      · have hmu0 : muDp all city < n + 1 := hmu city (List.mem_cons_self city rest) h
        obtain ⟨d1, d2, d3, d4⟩ := dp_correct dm s n (n + 1) all city memo hmu0 hG
        rw [topLoop_cons_pos h, pureTop_cons_pos h, d1]
        have hmu' : ∀ c ∈ rest, c ≠ s → muDp all c < n + 1 :=
          fun c hc => hmu c (List.mem_cons_of_mem city hc)
        by_cases hlt : (dpPure dm s n all city).1 < best.1
        · rw [if_pos hlt, if_pos hlt]
          obtain ⟨r1, r2, r3, r4⟩ := IH (dp dm s n (n + 1) memo all city).1
            ((dpPure dm s n all city).1, Int.ofNat city) hmu' d2
          refine ⟨r1, r2, memoSub_trans d3 r3, ?_⟩
          intro c hc hcs hne
          rcases List.mem_cons.mp hc with rfl | hc'
          · exact memoSub_isSome r3 (d4 hne)
          · exact r4 c hc' hcs hne
        · rw [if_neg hlt, if_neg hlt]
          obtain ⟨r1, r2, r3, r4⟩ := IH (dp dm s n (n + 1) memo all city).1 best hmu' d2
          refine ⟨r1, r2, memoSub_trans d3 r3, ?_⟩
          intro c hc hcs hne
          rcases List.mem_cons.mp hc with rfl | hc'
          · exact memoSub_isSome r3 (d4 hne)
          · exact r4 c hc' hcs hne
      · rw [topLoop_cons_neg h, pureTop_cons_neg h]
        have hmu' : ∀ c ∈ rest, c ≠ s → muDp all c < n + 1 :=
          fun c hc => hmu c (List.mem_cons_of_mem city hc)
        obtain ⟨r1, r2, r3, r4⟩ := IH memo best hmu' hG
        refine ⟨r1, r2, r3, ?_⟩
        intro c hc hcs hne
        rcases List.mem_cons.mp hc with rfl | hc'
        · exact absurd hcs h
        · exact r4 c hc' hcs hne

/-- Inversion for the top-level fold: the result is either the initial
accumulator or the value and index of one of the evaluated cities. -/
lemma pureTop_inv (dm : List (List Dist)) (s n : ℕ) (all : Finset ℕ) :
    ∀ (cities : List ℕ) (best : Dist × Int),
      pureTop dm s n all cities best = best ∨
      ∃ c, c ∈ cities ∧ c ≠ s ∧
        pureTop dm s n all cities best = ((dpPure dm s n all c).1, Int.ofNat c) := by
  intro cities
  induction cities with
  | nil => intro best; exact Or.inl pureTop_nil
  | cons city rest IH =>
      intro best
      by_cases h : city ≠ s
      · rw [pureTop_cons_pos h]
        by_cases hlt : (dpPure dm s n all city).1 < best.1
        · rw [if_pos hlt]
          rcases IH ((dpPure dm s n all city).1, Int.ofNat city) with heq | ⟨c, hc, hcs, heq⟩
          · exact Or.inr ⟨city, List.mem_cons_self city rest, h, heq⟩
          · exact Or.inr ⟨c, List.mem_cons_of_mem city hc, hcs, heq⟩
        · rw [if_neg hlt]
          rcases IH best with heq | ⟨c, hc, hcs, heq⟩
          · exact Or.inl heq
          · exact Or.inr ⟨c, List.mem_cons_of_mem city hc, hcs, heq⟩
      · rw [pureTop_cons_neg h]
        rcases IH best with heq | ⟨c, hc, hcs, heq⟩
        · exact Or.inl heq
        · exact Or.inr ⟨c, List.mem_cons_of_mem city hc, hcs, heq⟩

/-- If the top-level fold ends with an infinite minimum, no candidate
was ever selected: the accumulator is returned unchanged (so
`last_city` is still `-1`). -/
lemma pureTop_top (dm : List (List Dist)) (s n : ℕ) (all : Finset ℕ) :
    ∀ (cities : List ℕ) (best : Dist × Int),
      (pureTop dm s n all cities best).1 = ⊤ → pureTop dm s n all cities best = best := by
  intro cities
  induction cities with
  | nil => intro best _; exact pureTop_nil
  | cons city rest IH =>
      intro best htop
      by_cases h : city ≠ s
      · rw [pureTop_cons_pos h] at htop ⊢
        by_cases hlt : (dpPure dm s n all city).1 < best.1
        · rw [if_pos hlt] at htop ⊢
          have heq := IH _ htop
          rw [heq] at htop
          exact absurd (htop ▸ hlt) not_top_lt
        · rw [if_neg hlt] at htop ⊢
          exact IH best htop
      · rw [pureTop_cons_neg h] at htop ⊢
        exact IH best htop

/-- Inversion for the candidate loop of `dpPure`: the result is either
the incoming accumulator or the total cost and index of one candidate
that passed the guard. -/
lemma dpPureFold_inv (dm : List (List Dist)) (s n : ℕ) (v : Finset ℕ) (l : ℕ) :
    ∀ (cities : List ℕ) (best : Dist × Int),
      dpPureFold dm s n v l cities best = best ∨
      ∃ c, c ∈ cities ∧ c ∈ v ∧ c ≠ l ∧
        dpPureFold dm s n v l cities best =
          ((dpPure dm s n (toggle v l) c).1 + ent dm c l, Int.ofNat c) := by
  intro cities
  induction cities with
  | nil => intro best; exact Or.inl dpPureFold_nil
  | cons city rest IH =>
      intro best
      by_cases h : city ∈ v ∧ city ≠ l
      · rw [dpPureFold_cons_pos h]
        by_cases hlt : (dpPure dm s n (toggle v l) city).1 + ent dm city l < best.1
        · rw [if_pos hlt]
          rcases IH ((dpPure dm s n (toggle v l) city).1 + ent dm city l, Int.ofNat city)
            with heq | ⟨c, hc, hcv, hcl, heq⟩
          · exact Or.inr ⟨city, List.mem_cons_self city rest, h.1, h.2, heq⟩
          · exact Or.inr ⟨c, List.mem_cons_of_mem city hc, hcv, hcl, heq⟩
        · rw [if_neg hlt]
          rcases IH best with heq | ⟨c, hc, hcv, hcl, heq⟩
          · exact Or.inl heq
          · exact Or.inr ⟨c, List.mem_cons_of_mem city hc, hcv, hcl, heq⟩
      · rw [dpPureFold_cons_neg h]
        rcases IH best with heq | ⟨c, hc, hcv, hcl, heq⟩
        · exact Or.inl heq
        · exact Or.inr ⟨c, List.mem_cons_of_mem city hc, hcv, hcl, heq⟩

/-- If every guarded candidate has infinite total cost, the candidate
loop returns its accumulator unchanged (infinity never beats anything
under the strict comparison). -/
lemma dpPureFold_top {dm : List (List Dist)} {s n : ℕ} {v : Finset ℕ} {l : ℕ}
    {cities : List ℕ}
    (H : ∀ c ∈ cities, c ∈ v → c ≠ l →
      (dpPure dm s n (toggle v l) c).1 + ent dm c l = ⊤) :
    ∀ best, dpPureFold dm s n v l cities best = best := by
  induction cities with
  | nil => intro best; exact dpPureFold_nil
  | cons city rest IH =>
      intro best
      have Hrest : ∀ c ∈ rest, c ∈ v → c ≠ l →
          (dpPure dm s n (toggle v l) c).1 + ent dm c l = ⊤ :=
        fun c hc => H c (List.mem_cons_of_mem city hc)
      by_cases h : city ∈ v ∧ city ≠ l
      · rw [dpPureFold_cons_pos h]
        have htot := H city (List.mem_cons_self city rest) h.1 h.2
        rw [htot, if_neg not_top_lt]
        exact IH Hrest best
      · rw [dpPureFold_cons_neg h]
        exact IH Hrest best

/-- States whose visited set does not contain the start bottom out with
no viable candidate: `dp` returns `(inf, -1)` there (memo-free form). -/
theorem dpPure_no_start (dm : List (List Dist)) (s n : ℕ) :
    ∀ (N : ℕ) (v : Finset ℕ) (l : ℕ), v.card ≤ N → s ∉ v → l ∈ v →
      dpPure dm s n v l = (⊤, -1) := by
  intro N
  induction N with
  | zero =>
      intro v l hcard hs hl
      have : v = ∅ := Finset.card_eq_zero.mp (Nat.le_zero.mp hcard)
      exact absurd (this ▸ hl) (Finset.not_mem_empty l)
  | succ N IH =>
      intro v l hcard hs hl
      have hne : v ≠ ({s} : Finset ℕ) := by
        intro hv
        exact hs (hv ▸ Finset.mem_singleton_self s)
      rw [dpPure_rec hne]
      refine dpPureFold_top (fun c _ hcv hcl => ?_) (⊤, -1)
      have ht : toggle v l = v.erase l := by rw [toggle, if_pos hl]
      have hsub : (dpPure dm s n (toggle v l) c).1 = ⊤ := by
        rw [ht]
        rw [IH (v.erase l) c ?_ ?_ ?_]
        · have hcard' : (v.erase l).card = v.card - 1 := Finset.card_erase_of_mem hl
          omega
        · exact fun hmem => hs (Finset.mem_of_mem_erase hmem)
        · exact Finset.mem_erase.mpr ⟨hcl, hcv⟩
      rw [hsub, top_add]

/-- A state that would pass through the start in mid-tour is infeasible:
`dp(visited, start)` with a larger visited set returns `(inf, -1)`. -/
theorem dpPure_mid_start (dm : List (List Dist)) (s n : ℕ) (v : Finset ℕ)
    (h1 : s ∈ v) (h2 : v ≠ ({s} : Finset ℕ)) : dpPure dm s n v s = (⊤, -1) := by
  rw [dpPure_rec h2]
  refine dpPureFold_top (fun c _ hcv hcl => ?_) (⊤, -1)
  have ht : toggle v s = v.erase s := by rw [toggle, if_pos h1]
  have hsub : (dpPure dm s n (toggle v s) c).1 = ⊤ := by
    rw [ht, dpPure_no_start dm s n (v.erase s).card (v.erase s) c le_rfl
      (Finset.not_mem_erase s v) (Finset.mem_erase.mpr ⟨hcl, hcv⟩)]
  rw [hsub, top_add]

section Recon

variable {dm : List (List Dist)} {s n fuel : ℕ} {memo : Memo}
variable {visited : Finset ℕ} {current : Int} {route : List Int}

lemma reconLoop_zero : reconLoop memo 0 visited current route = route := by
  rw [reconLoop]

lemma reconLoop_succ :
    reconLoop memo (fuel + 1) visited current route =
      if current = -1 then route
      else if ((lookupMemo memo (visited, current.toNat)).getD (0, -1)).2 = -1 then
        route ++ [current]
      else
        reconLoop memo fuel (toggle visited current.toNat)
          ((lookupMemo memo (visited, current.toNat)).getD (0, -1)).2 (route ++ [current]) := by
  rw [reconLoop]

lemma good_base_absent (hG : Good dm s n memo) (c : ℕ) :
    lookupMemo memo (({s} : Finset ℕ), c) = none := by
  cases h : lookupMemo memo (({s} : Finset ℕ), c) with
  | none => rfl
  | some val => exact absurd rfl (hG ({s}, c) val h).2.1

lemma ofNat_ne_neg_one (c : ℕ) : Int.ofNat c ≠ -1 := by
  intro h
  have h2 : (c : ℤ) = -1 := h
  omega

end Recon

/-- Walking the memo backwards from a finite-cost, recorded state
`(S, c)` yields exactly the elements of `S`, starting at `c` and ending
at the start node, each exactly once. -/
theorem recon_chain (dm : List (List Dist)) (s n : ℕ) (memo : Memo)
    (hG : Good dm s n memo) :
    ∀ (fuel : ℕ) (S : Finset ℕ) (c : ℕ) (acc : List Int),
      S.card ≤ fuel → c ∈ S → s ∈ S → c ≠ s →
      (dpPure dm s n S c).1 ≠ ⊤ →
      (lookupMemo memo (S, c)).isSome = true →
      ∃ l : List ℕ, reconLoop memo fuel S (Int.ofNat c) acc = acc ++ l.map Int.ofNat ∧
        l.Nodup ∧ l.toFinset = S ∧ l.head? = some c ∧ l.getLast? = some s := by
  intro fuel
  induction fuel with
  | zero =>
      intro S c acc hcard hcS hsS hcs hfin hsome
      have : S = ∅ := Finset.card_eq_zero.mp (Nat.le_zero.mp hcard)
      exact absurd (this ▸ hcS) (Finset.not_mem_empty c)
  | succ fuel IH =>
      intro S c acc hcard hcS hsS hcs hfin hsome
      have hSne : S ≠ ({s} : Finset ℕ) := by
        intro h
        exact hcs (Finset.mem_singleton.mp (h ▸ hcS))
      have hrec : dpPure dm s n S c = dpPureFold dm s n S c (List.range n) (⊤, -1) :=
        dpPure_rec hSne
      rcases dpPureFold_inv dm s n S c (List.range n) (⊤, -1) with heq | ⟨p, hpr, hpv, hpc, heq⟩
      · rw [hrec, heq] at hfin
        exact absurd rfl hfin
      · have hval : dpPure dm s n S c =
            ((dpPure dm s n (toggle S c) p).1 + ent dm p c, Int.ofNat p) := by
          rw [hrec]; exact heq
        have hterase : toggle S c = S.erase c := by rw [toggle, if_pos hcS]
        have hfin' : (dpPure dm s n (S.erase c) p).1 ≠ ⊤ := by
          intro h
          apply hfin
          rw [hval]
          show (dpPure dm s n (toggle S c) p).1 + ent dm p c = ⊤
          rw [hterase, h, top_add]
        have hpS : p ∈ S.erase c := Finset.mem_erase.mpr ⟨hpc, hpv⟩
        obtain ⟨val, hlook⟩ := Option.isSome_iff_exists.mp hsome
        have hvm := (hG (S, c) val hlook).1
        have hpr2 : val.2 = Int.ofNat p := by rw [hvm, hval]
        have htn : (Int.ofNat c).toNat = c := Int.toNat_ofNat c
        rw [reconLoop_succ, if_neg (ofNat_ne_neg_one c), htn, hlook]
        simp only [Option.getD_some]
        rw [hpr2, if_neg (ofNat_ne_neg_one p), hterase]
        by_cases hbase : S.erase c = ({s} : Finset ℕ)
        · have hps : p = s := Finset.mem_singleton.mp (hbase ▸ hpS)
          have hS2 : S = insert c ({s} : Finset ℕ) := by
            rw [← hbase, Finset.insert_erase hcS]
          have hcns : c ∉ ({s} : Finset ℕ) := fun h => hcs (Finset.mem_singleton.mp h)
          have hcard2 : S.card = 2 := by
            rw [hS2, Finset.card_insert_of_not_mem hcns, Finset.card_singleton]
          obtain ⟨fuel', rfl⟩ : ∃ f', fuel = f' + 1 := ⟨fuel - 1, by omega⟩
          have htns : (Int.ofNat s).toNat = s := Int.toNat_ofNat s
          rw [hps, hbase, reconLoop_succ, if_neg (ofNat_ne_neg_one s), htns,
            good_base_absent hG s]
          refine ⟨[c, s], ?_, ?_, ?_, rfl, rfl⟩
          · simp
          · simp [hcs]
          · rw [hS2]
            simp
        · have hpns : p ≠ s := by
            intro hp
            subst hp
            have hsmem : p ∈ S.erase c := hpS
            have := dpPure_mid_start dm p n (S.erase c)
              (Finset.mem_erase.mpr ⟨Ne.symm hcs, hsS⟩) hbase
            exact hfin' (by rw [this])
          have hpn : p < n := List.mem_range.mp hpr
          have hclos := (hG (S, c) val hlook).2.2 p hpn hpv hpc
            (by rw [hterase]; exact hbase)
          rw [hterase] at hclos
          have hcard' : (S.erase c).card ≤ fuel := by
            rw [Finset.card_erase_of_mem hcS]
            omega
          have hsS' : s ∈ S.erase c := Finset.mem_erase.mpr ⟨Ne.symm hcs, hsS⟩
          obtain ⟨l', hl1, hl2, hl3, hl4, hl5⟩ :=
            IH (S.erase c) p (acc ++ [Int.ofNat c]) hcard' hpS hsS' hpns hfin' hclos
          refine ⟨c :: l', ?_, ?_, ?_, rfl, ?_⟩
          · rw [hl1]
            simp
          · have hcl' : c ∉ l' := by
              intro hmem
              have : c ∈ l'.toFinset := List.mem_toFinset.mpr hmem
              rw [hl3] at this
              exact (Finset.mem_erase.mp this).1 rfl
            exact List.nodup_cons.mpr ⟨hcl', hl2⟩
          · rw [List.toFinset_cons, hl3, Finset.insert_erase hcS]
          · cases l' with
            | nil => exact absurd hl4 (by simp)
            | cons a t => rw [List.getLast?_cons_cons]; exact hl5

/-- If every evaluated candidate value is infinite, the top-level fold
keeps its accumulator. -/
lemma pureTop_keep {dm : List (List Dist)} {s n : ℕ} {all : Finset ℕ} {cities : List ℕ}
    (H : ∀ c ∈ cities, c ≠ s → (dpPure dm s n all c).1 = ⊤) :
    ∀ best, pureTop dm s n all cities best = best := by
  induction cities with
  | nil => intro best; exact pureTop_nil
  | cons city rest IH =>
      intro best
      have Hrest : ∀ c ∈ rest, c ≠ s → (dpPure dm s n all c).1 = ⊤ :=
        fun c hc => H c (List.mem_cons_of_mem city hc)
      by_cases h : city ≠ s
      · rw [pureTop_cons_pos h, H city (List.mem_cons_self city rest) h, if_neg not_top_lt]
        exact IH Hrest best
      · rw [pureTop_cons_neg h]
        exact IH Hrest best

/-- The cost `_held_karp_algorithm` returns is the memo-free top-level
fold; with an infinite optimal value the reconstructed route is empty,
and with a finite one it is a reversal of a duplicate-free enumeration
of all nodes ending at the start. -/
theorem hk_spec (dm : List (List Dist)) (s : ℕ) (hs : s < dm.length) :
    ((held_karp_algorithm dm s).2 =
      (pureTop dm s dm.length (Finset.range dm.length) (List.range dm.length) (⊤, -1)).1) ∧
    ((held_karp_algorithm dm s).2 = ⊤ → (held_karp_algorithm dm s).1 = []) ∧
    ((held_karp_algorithm dm s).2 ≠ ⊤ →
      ∃ l : List ℕ, (held_karp_algorithm dm s).1 = (l.map Int.ofNat).reverse ∧
        l.Nodup ∧ l.toFinset = Finset.range dm.length ∧ l.getLast? = some s) := by
  set n := dm.length with hn
  set all : Finset ℕ := Finset.range n with hall
  have hmu : ∀ c ∈ List.range n, c ≠ s → muDp all c < n + 1 := by
    intro c hc _
    have hcm : c ∈ all := Finset.mem_range.mpr (List.mem_range.mp hc)
    rw [muDp, if_pos hcm, hall, Finset.card_range]
    omega
  obtain ⟨t1, t2, _, t4⟩ :=
    topLoop_correct dm s n all (List.range n) [] (⊤, -1) hmu good_nil
  have hdef : held_karp_algorithm dm s =
      ((reconLoop (topLoop dm s n all (List.range n) [] (⊤, -1)).1 (n + 1) all
        (topLoop dm s n all (List.range n) [] (⊤, -1)).2.2 []).reverse,
       (topLoop dm s n all (List.range n) [] (⊤, -1)).2.1) := rfl
  refine ⟨?_, ?_, ?_⟩
  · rw [hdef, t1]
  · intro htop
    rw [hdef] at htop ⊢
    simp only at htop ⊢
    rw [t1] at htop
    have hkeep := pureTop_top dm s n all (List.range n) (⊤, -1) htop
    have h22 : (topLoop dm s n all (List.range n) [] (⊤, -1)).2.2 = -1 := by
      rw [t1, hkeep]
    rw [h22, reconLoop_succ, if_pos rfl]
    rfl
  · intro hfin
    rw [hdef] at hfin ⊢
    simp only at hfin ⊢
    rw [t1] at hfin
    rcases pureTop_inv dm s n all (List.range n) (⊤, -1) with heq | ⟨c, hc, hcs, heq⟩
    · rw [heq] at hfin
      exact absurd rfl hfin
    · have hcm : c ∈ all := Finset.mem_range.mpr (List.mem_range.mp hc)
      have hallne : all ≠ ({s} : Finset ℕ) := by
        intro h
        exact hcs (Finset.mem_singleton.mp (h ▸ hcm))
      have h22 : (topLoop dm s n all (List.range n) [] (⊤, -1)).2.2 = Int.ofNat c := by
        rw [t1, heq]
      have hfin' : (dpPure dm s n all c).1 ≠ ⊤ := by
        rw [heq] at hfin
        exact hfin
      have hpres := t4 c hc hcs hallne
      have hcard : all.card ≤ n + 1 := by
        rw [hall, Finset.card_range]
        omega
      have hsm : s ∈ all := Finset.mem_range.mpr hs
      obtain ⟨l, hl1, hl2, hl3, _, hl5⟩ :=
        recon_chain dm s n (topLoop dm s n all (List.range n) [] (⊤, -1)).1 t2
          (n + 1) all c [] hcard hcm hsm (Ne.symm (fun h => hcs h.symm)) hfin' hpres
      refine ⟨l, ?_, hl2, hl3, hl5⟩
      rw [h22, hl1]
      simp

/-- With every off-diagonal entry infinite, `_held_karp_algorithm`
returns the empty route with infinite cost. -/
theorem hk_all_top (dm : List (List Dist))
    (H : ∀ i j, i < dm.length → j < dm.length → i ≠ j → ent dm i j = ⊤) :
    held_karp_algorithm dm 0 = ([], ⊤) := by
  set n := dm.length with hn
  set all : Finset ℕ := Finset.range n with hall
  have hmu : ∀ c ∈ List.range n, c ≠ 0 → muDp all c < n + 1 := by
    intro c hc _
    have hcm : c ∈ all := Finset.mem_range.mpr (List.mem_range.mp hc)
    rw [muDp, if_pos hcm, hall, Finset.card_range]
    omega
  obtain ⟨t1, _, _, _⟩ :=
    topLoop_correct dm 0 n all (List.range n) [] (⊤, -1) hmu good_nil
  have Hdp : ∀ c ∈ List.range n, c ≠ 0 → (dpPure dm 0 n all c).1 = ⊤ := by
    intro c hc hcs
    have hcn : c < n := List.mem_range.mp hc
    have hcm : c ∈ all := Finset.mem_range.mpr hcn
    have hne : all ≠ ({0} : Finset ℕ) := by
      intro h
      exact hcs (Finset.mem_singleton.mp (h ▸ hcm))
    rw [dpPure_rec hne]
    rw [dpPureFold_top (fun c' hc' _ hcl' => ?_) (⊤, -1)]
    rw [H c' c (List.mem_range.mp hc') hcn hcl', add_top]
  have hkeep : pureTop dm 0 n all (List.range n) (⊤, -1) = (⊤, -1) :=
    pureTop_keep Hdp (⊤, -1)
  have hdef : held_karp_algorithm dm 0 =
      ((reconLoop (topLoop dm 0 n all (List.range n) [] (⊤, -1)).1 (n + 1) all
        (topLoop dm 0 n all (List.range n) [] (⊤, -1)).2.2 []).reverse,
       (topLoop dm 0 n all (List.range n) [] (⊤, -1)).2.1) := rfl
  rw [hdef, t1, hkeep]
  rw [reconLoop_succ, if_pos rfl]
  rfl

section OptRoute

variable {addresses : List String} {response : Except String (List (List DMElement))}
variable {rows : List (List DMElement)}

lemma optimize_route_small (h : addresses.length ≤ 1) :
    optimize_route addresses response = ⟨"success", addresses, 0⟩ := by
  unfold optimize_route
  rw [if_pos h]

lemma optimize_route_error (h : ¬addresses.length ≤ 1) (e : String) :
    optimize_route addresses (.error e) = ⟨"error", addresses, 0⟩ := by
  unfold optimize_route
  rw [if_neg h]

lemma optimize_route_ok (h : ¬addresses.length ≤ 1) :
    optimize_route addresses (.ok rows) =
      (match (held_karp_algorithm (get_distance_matrix rows) 0).1.mapM (pyGet addresses) with
       | some r => ⟨"success", r, kmOf (held_karp_algorithm (get_distance_matrix rows) 0).2⟩
       | none => ⟨"error", addresses, 0⟩) := by
  unfold optimize_route
  rw [if_neg h]

end OptRoute

lemma kmOf_coe (q : ℚ) : kmOf ((q : ℚ) : Dist) = ((q / 1000 : ℚ) : Dist) := rfl

lemma kmOf_top : kmOf ⊤ = ⊤ := rfl

/-! ### Builder lemmas -/

lemma gdm_length (rows : List (List DMElement)) :
    (get_distance_matrix rows).length = rows.length := by
  unfold get_distance_matrix
  rw [List.length_map]

lemma gdm_row (rows : List (List DMElement)) (i : ℕ) (hi : i < rows.length) :
    (get_distance_matrix rows).getD i [] =
      (rows.getD i []).map fun e => if e.status = "OK" then (e.value : Dist) else ⊤ := by
  unfold get_distance_matrix
  rw [List.getD_eq_getElem _ _ (by simpa using hi), List.getD_eq_getElem _ _ hi,
    List.getElem_map]

lemma gdm_row_length (rows : List (List DMElement)) (i : ℕ) (hi : i < rows.length) :
    ((get_distance_matrix rows).getD i []).length = (rows.getD i []).length := by
  rw [gdm_row rows i hi, List.length_map]

lemma gdm_entry (rows : List (List DMElement)) (i j : ℕ) (hi : i < rows.length)
    (hj : j < (rows.getD i []).length) :
    ((get_distance_matrix rows).getD i []).getD j 0 =
      (if ((rows.getD i []).getD j default).status = "OK"
       then (((rows.getD i []).getD j default).value : Dist) else ⊤) := by
  rw [gdm_row rows i hi, List.getD_eq_getElem _ _ (by simpa using hj),
    List.getD_eq_getElem _ _ hj, List.getElem_map]

/-! ### The selection fold -/

section Select

variable {best p : Dist × Int} {rest ps₂ : List (Dist × Int)}

lemma selectFold_nil : selectFold [] best = best := rfl

lemma selectFold_cons :
    selectFold (p :: rest) best =
      if p.1 < best.1 then selectFold rest p else selectFold rest best := rfl

lemma selectFold_keep : ∀ (ps : List (Dist × Int)) (best : Dist × Int),
    (∀ q ∈ ps, ¬q.1 < best.1) → selectFold ps best = best := by
  intro ps
  induction ps with
  | nil => intro best _; rfl
  | cons p rest IH =>
      intro best H
      rw [selectFold_cons, if_neg (H p (List.mem_cons_self p rest))]
      exact IH best fun q hq => H q (List.mem_cons_of_mem p hq)

/-- The selection fold returns the first candidate attaining the
minimum: later candidates of equal cost never replace it. -/
lemma selectFold_first_min : ∀ (ps₁ : List (Dist × Int)) (p : Dist × Int)
    (ps₂ : List (Dist × Int)) (best : Dist × Int),
    (∀ q ∈ ps₁, p.1 < q.1) → (∀ q ∈ ps₂, p.1 ≤ q.1) → p.1 < best.1 →
    selectFold (ps₁ ++ p :: ps₂) best = p := by
  intro ps₁
  induction ps₁ with
  | nil =>
      intro p ps₂ best _ H2 Hb
      rw [List.nil_append, selectFold_cons, if_pos Hb]
      exact selectFold_keep ps₂ p fun q hq => not_lt.mpr (H2 q hq)
  | cons q rest IH =>
      intro p ps₂ best H1 H2 Hb
      rw [List.cons_append, selectFold_cons]
      by_cases hq : q.1 < best.1
      · rw [if_pos hq]
        exact IH p ps₂ q (fun r hr => H1 r (List.mem_cons_of_mem q hr)) H2
          (H1 q (List.mem_cons_self q rest))
      · rw [if_neg hq]
        exact IH p ps₂ best (fun r hr => H1 r (List.mem_cons_of_mem q hr)) H2 Hb

end Select

/-- The candidate loop of `dpPure` is the selection fold over the
candidate stream, in iteration order. -/
lemma dpPureFold_eq_selectFold (dm : List (List Dist)) (s n : ℕ) (v : Finset ℕ) (l : ℕ) :
    ∀ (cities : List ℕ) (best : Dist × Int),
      dpPureFold dm s n v l cities best = selectFold (candTotals dm s n v l cities) best := by
  intro cities
  induction cities with
  | nil => intro best; rw [dpPureFold_nil]; rfl
  | cons city rest IH =>
      intro best
      by_cases h : city ∈ v ∧ city ≠ l
      · have hct : candTotals dm s n v l (city :: rest) =
            ((dpPure dm s n (toggle v l) city).1 + ent dm city l, Int.ofNat city)
              :: candTotals dm s n v l rest := by
          unfold candTotals
          rw [List.filter_cons]
          simp [h]
        rw [dpPureFold_cons_pos h, hct, selectFold_cons]
        by_cases hlt : (dpPure dm s n (toggle v l) city).1 + ent dm city l < best.1
        · rw [if_pos hlt, if_pos hlt]
          exact IH _
        · rw [if_neg hlt, if_neg hlt]
          exact IH best
      · have hct : candTotals dm s n v l (city :: rest) = candTotals dm s n v l rest := by
          unfold candTotals
          rw [List.filter_cons]
          simp [h]
        rw [dpPureFold_cons_neg h, hct]
        exact IH best

/-- On a coherent memo and with sufficient fuel, the memoized candidate
loop of `dp` computes the memo-free loop value. -/
lemma dpFold_value (dm : List (List Dist)) (s n : ℕ) (fuel : ℕ) (v : Finset ℕ) (l : ℕ)
    (hfuel : muDp v l ≤ fuel) (cities : List ℕ) (best : Dist × Int) (memo : Memo)
    (hG : Good dm s n memo) :
    (dpFold dm (dp dm s n fuel) v l cities memo best).2 =
      dpPureFold dm s n v l cities best := by
  have hdpf : ∀ memo' c, c ∈ v → c ≠ l → Good dm s n memo' →
      (dp dm s n fuel memo' (toggle v l) c).2 = dpPure dm s n (toggle v l) c ∧
      Good dm s n (dp dm s n fuel memo' (toggle v l) c).1 ∧
      MemoSub memo' (dp dm s n fuel memo' (toggle v l) c).1 ∧
      (toggle v l ≠ ({s} : Finset ℕ) →
        (lookupMemo (dp dm s n fuel memo' (toggle v l) c).1 (toggle v l, c)).isSome = true) :=
    fun memo' c hc hcl hG' =>
      dp_correct dm s n fuel (toggle v l) c memo'
        (lt_of_lt_of_le (muDp_toggle_lt hc hcl) hfuel) hG'
  exact (dpFold_correct dm s n (dp dm s n fuel) v l hdpf cities memo best hG).1

/-! ### Closed-form evaluation on two nodes -/

/-- `_held_karp_algorithm` on any 2 by 2 matrix: the returned cost is
`matrix[0][0] + matrix[0][1]` (the cost of the one Hamiltonian path
`0 → 1` plus the self-loop of the base case) — the closing edge
`matrix[1][0]` is never added — and the route is `[0, 1]` when that cost
is finite and `[]` otherwise. -/
lemma hk_two (a b c d : Dist) :
    held_karp_algorithm [[a, b], [c, d]] 0 =
      (if a + b < ⊤ then ([0, 1] : List Int) else [], a + b) := by
  have h30 : (3 : ℕ) = 2 + 1 := rfl
  have h20 : (2 : ℕ) = 1 + 1 := rfl
  have hne : ¬(Finset.range 2 = ({0} : Finset ℕ)) := by decide
  have hg0 : ((0 : ℕ) ∈ Finset.range 2 ∧ (0 : ℕ) ≠ 1) := by decide
  have hg1 : ¬((1 : ℕ) ∈ Finset.range 2 ∧ (1 : ℕ) ≠ 1) := by decide
  have ht : toggle (Finset.range 2) 1 = ({0} : Finset ℕ) := by decide
  by_cases h : a + b < (⊤ : Dist)
  · simp [held_karp_algorithm, topLoop, dpFold, lookupMemo, store, reconLoop,
      ent, hne, hg0, hg1, ht, h, h30, h20, dp]
  · have htop : a + b = ⊤ := by
      by_contra hx
      exact h (WithTop.lt_top_iff_ne_top.mpr hx)
    simp [held_karp_algorithm, topLoop, dpFold, lookupMemo, store, reconLoop,
      ent, hne, hg0, hg1, ht, h, h30, h20, dp, htop]

/-- `optimize_route` on exactly two addresses with a successfully built
2 by 2 matrix of finite solver cost. -/
lemma optimize_route_two (a0 a1 : String) (rows : List (List DMElement))
    (m00 m01 m10 m11 : Dist)
    (hm : get_distance_matrix rows = [[m00, m01], [m10, m11]])
    (hfin : m00 + m01 < ⊤) :
    optimize_route [a0, a1] (.ok rows) = ⟨"success", [a0, a1], kmOf (m00 + m01)⟩ := by
  rw [optimize_route_ok (by simp), hm, hk_two, if_pos hfin]
  have hmap : (([0, 1] : List Int)).mapM (pyGet [a0, a1]) = some [a0, a1] := rfl
  rw [hmap]

/-- A list permuting `[0, 1]` is one of the two orders. -/
lemma perm_two {t : List ℕ} (h : t.Perm [0, 1]) : t = [0, 1] ∨ t = [1, 0] := by
  have hl : t.length = 2 := by simpa using h.length_eq
  cases t with
  | nil => simp at hl
  | cons a t1 =>
      cases t1 with
      | nil => simp at hl
      | cons b t2 =>
          cases t2 with
          | cons c t3 => simp at hl
          | nil =>
              have ha : a ∈ [0, 1] := h.subset (by simp)
              have hb : b ∈ [0, 1] := h.subset (by simp)
              have hnd : a ≠ b := by
                have h0 : ([0, 1] : List ℕ).Nodup := by decide
                have h2 : [a, b].Nodup := h.nodup_iff.mpr h0
                simpa using h2
              simp only [List.mem_cons, List.mem_singleton, List.not_mem_nil,
                or_false] at ha hb
              rcases ha with rfl | rfl <;> rcases hb with rfl | rfl <;> simp_all

/-! ### The claims -/

/-- C1: the spec claims `_held_karp_algorithm` returns the minimum
Hamiltonian-cycle weight including the closing edge back to the start —
in particular `matrix[0][1] + matrix[1][0]` for two nodes.  The code
does not: its base case only ever fires as `dp({start}, start)` and
contributes `matrix[start][start]` instead of the return leg, so the
returned cost is the weight of the cheapest Hamiltonian path leaving
node 0, without the closing edge.  On `[[0, 5], [7, 0]]` every
Hamiltonian cycle costs 12, yet the code returns 5. -/
theorem C1_held_karp_omits_return_edge :
    (∀ t : List ℕ, t.Perm (List.range 2) →
      tourCost [[((0:ℚ):Dist), ((5:ℚ):Dist)], [((7:ℚ):Dist), ((0:ℚ):Dist)]] t =
        ((12:ℚ):Dist)) ∧
    held_karp_algorithm [[((0:ℚ):Dist), ((5:ℚ):Dist)], [((7:ℚ):Dist), ((0:ℚ):Dist)]] 0 =
      ([0, 1], ((5:ℚ):Dist)) ∧
    ((5:ℚ):Dist) ≠ ((12:ℚ):Dist) := by
  refine ⟨?_, ?_, ?_⟩
  · intro t ht
    rcases perm_two (by simpa using ht) with rfl | rfl
    · norm_num [tourCost, pathCost, ent]
    · norm_num [tourCost, pathCost, ent]
  · rw [hk_two]
    norm_num
  · intro h
    have h5 : (5:ℚ) = 12 := by exact_mod_cast h
    norm_num at h5

/-- C2: `optimize_route` never propagates an exception: a failing batch
lookup (or a failing index mapping) yields exactly the structured result
`{status: error, optimized_route: input, distance: 0}`, and every result
is one of the two structured shapes. -/
theorem C2_optimize_route_structured (addrs : List String)
    (resp : Except String (List (List DMElement))) :
    ((optimize_route addrs resp).status = "success" ∨
      optimize_route addrs resp = ⟨"error", addrs, 0⟩) ∧
    (∀ e, resp = Except.error e → 2 ≤ addrs.length →
      optimize_route addrs resp = ⟨"error", addrs, 0⟩) := by
  constructor
  · by_cases h : addrs.length ≤ 1
    · left
      rw [optimize_route_small h]
    · cases resp with
      | error e =>
          right
          exact optimize_route_error h e
      | ok rows =>
          rw [optimize_route_ok h]
          cases hmap : (held_karp_algorithm (get_distance_matrix rows) 0).1.mapM
            (pyGet addrs) with
          | some r => left; rfl
          | none => right; rfl
  · intro e he h2
    subst he
    exact optimize_route_error (by omega) e

/-- C2 witness: a failing collaborator call on two addresses produces
exactly the error shape. -/
theorem C2_witness :
    optimize_route ["a", "b"] (Except.error "boom") = ⟨"error", ["a", "b"], 0⟩ :=
  (C2_optimize_route_structured ["a", "b"] (Except.error "boom")).2 "boom" rfl (by decide)

/-- C3: on zero or one address `optimize_route` returns immediately with
status success, the unchanged input and distance 0; the result does not
depend on the collaborator response (no matrix build, no solver run). -/
theorem C3_degenerate_short_circuit (addrs : List String)
    (resp : Except String (List (List DMElement))) (h : addrs.length ≤ 1) :
    optimize_route addrs resp = ⟨"success", addrs, 0⟩ :=
  optimize_route_small h

/-- C3 witness: one address, collaborator down, still a trivial success. -/
theorem C3_witness :
    optimize_route ["x"] (Except.error "net down") = ⟨"success", ["x"], 0⟩ :=
  C3_degenerate_short_circuit ["x"] (Except.error "net down") (by decide)

/-- C4: `_get_distance_matrix` stores infinity exactly at the entries
whose response element has a status other than `OK`, stores the numeric
value at `OK` entries, and always returns a matrix of the same shape as
the response — one per-pair failure never aborts the build. -/
theorem C4_per_pair_failure_isolation (rows : List (List DMElement)) :
    (get_distance_matrix rows).length = rows.length ∧
    (∀ i, i < rows.length →
      ((get_distance_matrix rows).getD i []).length = (rows.getD i []).length) ∧
    (∀ i j, i < rows.length → j < (rows.getD i []).length →
      ((rows.getD i []).getD j default).status ≠ "OK" →
      ((get_distance_matrix rows).getD i []).getD j 0 = ⊤) ∧
    (∀ i j, i < rows.length → j < (rows.getD i []).length →
      ((rows.getD i []).getD j default).status = "OK" →
      ((get_distance_matrix rows).getD i []).getD j 0 =
        (((rows.getD i []).getD j default).value : Dist)) := by
  refine ⟨gdm_length rows, fun i hi => gdm_row_length rows i hi, ?_, ?_⟩
  · intro i j hi hj hst
    rw [gdm_entry rows i j hi hj, if_neg hst]
  · intro i j hi hj hst
    rw [gdm_entry rows i j hi hj, if_pos hst]

/-- C4 witness: one `NOT_FOUND` element becomes infinity while the `OK`
element of the same row keeps its numeric value. -/
theorem C4_witness :
    ((get_distance_matrix [[⟨"OK", 3⟩, ⟨"NOT_FOUND", 9⟩]]).getD 0 []).getD 1 0 = ⊤ ∧
    ((get_distance_matrix [[⟨"OK", 3⟩, ⟨"NOT_FOUND", 9⟩]]).getD 0 []).getD 0 0 =
      ((3:ℚ):Dist) := by
  constructor
  · exact (C4_per_pair_failure_isolation [[⟨"OK", 3⟩, ⟨"NOT_FOUND", 9⟩]]).2.2.1 0 1
      (by decide) (by decide) (by decide)
  · exact (C4_per_pair_failure_isolation [[⟨"OK", 3⟩, ⟨"NOT_FOUND", 9⟩]]).2.2.2 0 0
      (by decide) (by decide) (by decide)

/-- C5 counterexample: on `[[0, 1], [inf, 0]]` every Hamiltonian cycle
is infinitely costly, yet `optimize_route` reports the finite distance
`1/1000` (the solver only prices the Hamiltonian path `0 → 1`), not an
infinite one as the claim states. -/
theorem C5_cex :
    (∀ t : List ℕ, t.Perm (List.range 2) →
      tourCost (get_distance_matrix [[⟨"OK", 0⟩, ⟨"OK", 1⟩], [⟨"NOT_FOUND", 0⟩, ⟨"OK", 0⟩]])
        t = ⊤) ∧
    optimize_route ["a", "b"]
        (Except.ok [[⟨"OK", 0⟩, ⟨"OK", 1⟩], [⟨"NOT_FOUND", 0⟩, ⟨"OK", 0⟩]]) =
      ⟨"success", ["a", "b"], ((1 / 1000 : ℚ) : Dist)⟩ ∧
    ((1 / 1000 : ℚ) : Dist) ≠ ⊤ := by
  have hm : get_distance_matrix [[⟨"OK", 0⟩, ⟨"OK", 1⟩], [⟨"NOT_FOUND", 0⟩, ⟨"OK", 0⟩]] =
      [[((0:ℚ):Dist), ((1:ℚ):Dist)], [⊤, ((0:ℚ):Dist)]] := by decide
  refine ⟨?_, ?_, ?_⟩
  · intro t ht
    rw [hm]
    rcases perm_two (by simpa using ht) with rfl | rfl
    · norm_num [tourCost, pathCost, ent]
    · norm_num [tourCost, pathCost, ent]
  · have h := optimize_route_two "a" "b" _ ((0:ℚ):Dist) ((1:ℚ):Dist) ⊤ ((0:ℚ):Dist) hm
      (by rw [show ((0:ℚ):Dist) + ((1:ℚ):Dist) = ((1:ℚ):Dist) from by norm_num]
          exact WithTop.coe_lt_top 1)
    rw [show ((0:ℚ):Dist) + ((1:ℚ):Dist) = ((1:ℚ):Dist) from by norm_num, kmOf_coe] at h
    exact h
  · exact WithTop.coe_ne_top

/-- C5 amended: when the built matrix has every off-diagonal entry
infinite (so neither a Hamiltonian cycle nor a Hamiltonian path of
finite weight exists), `optimize_route` on at least two addresses still
returns status success — with an empty route and an infinite reported
distance — rather than an error status or an exception. -/
theorem C5_infeasible_reported_success (addrs : List String)
    (rows : List (List DMElement)) (h2 : 2 ≤ addrs.length)
    (H : ∀ i, i < (get_distance_matrix rows).length →
      ∀ j, j < (get_distance_matrix rows).length → i ≠ j →
        ent (get_distance_matrix rows) i j = ⊤) :
    optimize_route addrs (Except.ok rows) = ⟨"success", [], ⊤⟩ := by
  have H' : ∀ i j, i < (get_distance_matrix rows).length →
      j < (get_distance_matrix rows).length → i ≠ j →
      ent (get_distance_matrix rows) i j = ⊤ := fun i j hi hj => H i hi j hj
  rw [optimize_route_ok (by omega), hk_all_top _ H']
  rfl

/-- C5 witness: both off-diagonal lookups fail, and the result is a
success with empty route and infinite distance. -/
theorem C5_witness :
    optimize_route ["a", "b"]
        (Except.ok [[⟨"OK", 0⟩, ⟨"X", 0⟩], [⟨"X", 0⟩, ⟨"OK", 0⟩]]) =
      ⟨"success", [], ⊤⟩ :=
  C5_infeasible_reported_success ["a", "b"] [[⟨"OK", 0⟩, ⟨"X", 0⟩], [⟨"X", 0⟩, ⟨"OK", 0⟩]]
    (by decide) (by decide)

/-- C6 counterexample: on the 2 by 2 matrix with infinite off-diagonal
entries the returned route is empty — not a length-2 permutation of
`0..1` as the claim asserts for every matrix. -/
theorem C6_cex :
    held_karp_algorithm [[((0:ℚ):Dist), ⊤], [⊤, ((0:ℚ):Dist)]] 0 = ([], ⊤) ∧
    ¬(([] : List Int).map Int.toNat).Perm (List.range 2) := by
  constructor
  · rw [hk_two]
    norm_num
  · decide

/-- C6 amended: whenever the solver's returned cost is finite, the route
is a permutation of `0..n-1` of length exactly n beginning at the start
node 0 (return to start implicit); when the cost is infinite the route
is empty. -/
theorem C6_route_permutation_when_finite (dm : List (List Dist)) (hn : 2 ≤ dm.length)
    (hsq : ∀ row ∈ dm, row.length = dm.length) :
    ((held_karp_algorithm dm 0).2 = ⊤ → (held_karp_algorithm dm 0).1 = []) ∧
    ((held_karp_algorithm dm 0).2 ≠ ⊤ →
      ((held_karp_algorithm dm 0).1.map Int.toNat).Perm (List.range dm.length) ∧
      (held_karp_algorithm dm 0).1.head? = some (0 : Int) ∧
      (held_karp_algorithm dm 0).1.length = dm.length) := by
  obtain ⟨_, hinf, hfin⟩ := hk_spec dm 0 (by omega)
  refine ⟨hinf, ?_⟩
  intro h
  obtain ⟨l, hroute, hnd, htf, hlast⟩ := hfin h
  have hmap : (held_karp_algorithm dm 0).1.map Int.toNat = l.reverse := by
    rw [hroute, List.map_reverse, List.map_map]
    have hco : (Int.toNat ∘ Int.ofNat) = id := funext fun x => Int.toNat_ofNat x
    rw [hco, List.map_id]
  have hperm : l.Perm (List.range dm.length) := by
    apply List.perm_of_nodup_nodup_toFinset_eq hnd (List.nodup_range _)
    rw [htf]
    ext x
    simp
  refine ⟨?_, ?_, ?_⟩
  · rw [hmap]
    exact l.reverse_perm.trans hperm
  · rw [hroute, List.head?_reverse, List.getLast?_map, hlast]
    rfl
  · have hlen : (held_karp_algorithm dm 0).1.length = l.length := by
      rw [hroute, List.length_reverse, List.length_map]
    rw [hlen, hperm.length_eq, List.length_range]

/-- C6 witness: on `[[0, 1], [1, 0]]` the returned route is a length-2
permutation of `0..1` starting at node 0. -/
theorem C6_witness :
    ((held_karp_algorithm [[((0:ℚ):Dist), ((1:ℚ):Dist)], [((1:ℚ):Dist), ((0:ℚ):Dist)]]
        0).1.map Int.toNat).Perm (List.range 2) ∧
    (held_karp_algorithm [[((0:ℚ):Dist), ((1:ℚ):Dist)], [((1:ℚ):Dist), ((0:ℚ):Dist)]]
        0).1.head? = some (0 : Int) ∧
    (held_karp_algorithm [[((0:ℚ):Dist), ((1:ℚ):Dist)], [((1:ℚ):Dist), ((0:ℚ):Dist)]]
        0).1.length = 2 :=
  (C6_route_permutation_when_finite
      [[((0:ℚ):Dist), ((1:ℚ):Dist)], [((1:ℚ):Dist), ((0:ℚ):Dist)]] (by decide)
      (by decide)).2
    (by
      rw [hk_two]
      norm_num)

/-- C7 counterexample: `_get_distance_matrix` does not force zeros on
the diagonal: a non-`OK` diagonal element is stored as infinity. -/
theorem C7_cex :
    get_distance_matrix [[⟨"NOT_FOUND", 0⟩]] = [[⊤]] ∧ ((⊤ : Dist) ≠ 0) := by
  constructor
  · decide
  · decide

/-- C7 amended: the matrix mirrors the response shape — one row per
response row, one entry per element — and a diagonal entry is 0 exactly
when the collaborator reports it as `OK` with distance value 0 (as the
live distance service does for identical origin and destination). -/
theorem C7_matrix_mirrors_response (rows : List (List DMElement)) :
    (get_distance_matrix rows).length = rows.length ∧
    (∀ i, i < rows.length →
      ((get_distance_matrix rows).getD i []).length = (rows.getD i []).length) ∧
    (∀ i, i < rows.length → i < (rows.getD i []).length →
      ((rows.getD i []).getD i default).status = "OK" →
      ((rows.getD i []).getD i default).value = 0 →
      ((get_distance_matrix rows).getD i []).getD i 0 = 0) := by
  refine ⟨gdm_length rows, fun i hi => gdm_row_length rows i hi, ?_⟩
  intro i hi hj hst hval
  rw [gdm_entry rows i i hi hj, if_pos hst, hval]
  rfl

/-- C7 witness: an `OK` diagonal element with value 0 is stored as 0. -/
theorem C7_witness :
    ((get_distance_matrix [[⟨"OK", 0⟩]]).getD 0 []).getD 0 0 = 0 :=
  (C7_matrix_mirrors_response [[⟨"OK", 0⟩]]).2.2 0 (by decide) (by decide) (by decide)
    (by decide)

/-- C8 counterexample: on a matrix whose every Hamiltonian cycle costs
10, the reported distance is `4/1000` (the solver's Hamiltonian-path
cost divided by 1000) and not `0.01 = 10/1000` as the claim's instance
requires. -/
theorem C8_cex :
    (∀ t : List ℕ, t.Perm (List.range 2) →
      tourCost (get_distance_matrix [[⟨"OK", 0⟩, ⟨"OK", 4⟩], [⟨"OK", 6⟩, ⟨"OK", 0⟩]]) t =
        ((10:ℚ):Dist)) ∧
    optimize_route ["a", "b"] (Except.ok [[⟨"OK", 0⟩, ⟨"OK", 4⟩], [⟨"OK", 6⟩, ⟨"OK", 0⟩]]) =
      ⟨"success", ["a", "b"], ((4 / 1000 : ℚ) : Dist)⟩ ∧
    ((4 / 1000 : ℚ) : Dist) ≠ ((1 / 100 : ℚ) : Dist) := by
  have hm : get_distance_matrix [[⟨"OK", 0⟩, ⟨"OK", 4⟩], [⟨"OK", 6⟩, ⟨"OK", 0⟩]] =
      [[((0:ℚ):Dist), ((4:ℚ):Dist)], [((6:ℚ):Dist), ((0:ℚ):Dist)]] := by decide
  refine ⟨?_, ?_, ?_⟩
  · intro t ht
    rw [hm]
    rcases perm_two (by simpa using ht) with rfl | rfl
    · norm_num [tourCost, pathCost, ent]
    · norm_num [tourCost, pathCost, ent]
  · have h := optimize_route_two "a" "b" _ ((0:ℚ):Dist) ((4:ℚ):Dist) ((6:ℚ):Dist)
      ((0:ℚ):Dist) hm
      (by rw [show ((0:ℚ):Dist) + ((4:ℚ):Dist) = ((4:ℚ):Dist) from by norm_num]
          exact WithTop.coe_lt_top 4)
    rw [show ((0:ℚ):Dist) + ((4:ℚ):Dist) = ((4:ℚ):Dist) from by norm_num, kmOf_coe] at h
    exact h
  · intro h
    have h4 : (4 / 1000 : ℚ) = 1 / 100 := by exact_mod_cast h
    norm_num at h4

/-- C8 amended: on a successful build and solve, the reported
`distance (in km)` is exactly the solver's raw cost divided by 1000; in
particular a solver cost of 10 yields exactly `0.01 = 1/100`. -/
theorem C8_km_is_cost_div_1000 (addrs : List String) (rows : List (List DMElement))
    (r : List String) (h2 : 2 ≤ addrs.length)
    (hmap : (held_karp_algorithm (get_distance_matrix rows) 0).1.mapM (pyGet addrs) =
      some r) :
    optimize_route addrs (Except.ok rows) =
      ⟨"success", r, kmOf (held_karp_algorithm (get_distance_matrix rows) 0).2⟩ ∧
    (∀ q : ℚ, kmOf ((q : ℚ) : Dist) = ((q / 1000 : ℚ) : Dist)) ∧
    kmOf ((10 : ℚ) : Dist) = ((1 / 100 : ℚ) : Dist) := by
  refine ⟨?_, fun q => kmOf_coe q, ?_⟩
  · rw [optimize_route_ok (by omega), hmap]
  · rw [kmOf_coe]
    norm_num

/-- C8 witness: concrete successful run through the conversion. -/
theorem C8_witness :
    optimize_route ["a", "b"] (Except.ok [[⟨"OK", 0⟩, ⟨"OK", 4⟩], [⟨"OK", 6⟩, ⟨"OK", 0⟩]]) =
      ⟨"success", ["a", "b"],
        kmOf (held_karp_algorithm
          (get_distance_matrix [[⟨"OK", 0⟩, ⟨"OK", 4⟩], [⟨"OK", 6⟩, ⟨"OK", 0⟩]]) 0).2⟩ :=
  (C8_km_is_cost_div_1000 ["a", "b"] [[⟨"OK", 0⟩, ⟨"OK", 4⟩], [⟨"OK", 6⟩, ⟨"OK", 0⟩]]
    ["a", "b"] (by decide)
    (by
      rw [show get_distance_matrix [[⟨"OK", 0⟩, ⟨"OK", 4⟩], [⟨"OK", 6⟩, ⟨"OK", 0⟩]] =
          [[((0:ℚ):Dist), ((4:ℚ):Dist)], [((6:ℚ):Dist), ((0:ℚ):Dist)]] from by decide,
        hk_two,
        if_pos (by rw [show ((0:ℚ):Dist) + ((4:ℚ):Dist) = ((4:ℚ):Dist) from by norm_num]
                   exact WithTop.coe_lt_top 4)]
      rfl)).1

/-- C9: the solver is deterministic (a pure function of the matrix), its
candidate loop is the strict-improvement selection fold over candidates
in ascending node order, and that fold returns the first candidate
attaining the minimum — an equal-cost later candidate never replaces the
incumbent; the memoized loop computes the same values. -/
theorem C9_deterministic_first_min :
    (∀ (dm : List (List Dist)) (s : ℕ),
      held_karp_algorithm dm s = held_karp_algorithm dm s) ∧
    (∀ (dm : List (List Dist)) (s n : ℕ) (v : Finset ℕ) (l : ℕ) (cities : List ℕ)
        (best : Dist × Int),
      dpPureFold dm s n v l cities best = selectFold (candTotals dm s n v l cities) best) ∧
    (∀ (ps₁ : List (Dist × Int)) (p : Dist × Int) (ps₂ : List (Dist × Int))
        (best : Dist × Int),
      (∀ q ∈ ps₁, p.1 < q.1) → (∀ q ∈ ps₂, p.1 ≤ q.1) → p.1 < best.1 →
      selectFold (ps₁ ++ p :: ps₂) best = p) ∧
    (∀ (dm : List (List Dist)) (s n fuel : ℕ) (v : Finset ℕ) (l : ℕ) (cities : List ℕ)
        (best : Dist × Int) (memo : Memo), muDp v l ≤ fuel → Good dm s n memo →
      (dpFold dm (dp dm s n fuel) v l cities memo best).2 =
        dpPureFold dm s n v l cities best) :=
  ⟨fun _ _ => rfl,
   fun dm s n v l cities best => dpPureFold_eq_selectFold dm s n v l cities best,
   selectFold_first_min,
   fun dm s n fuel v l cities best memo hf hG =>
     dpFold_value dm s n fuel v l hf cities best memo hG⟩

/-- C9 witness: among the candidates `(5, 0), (3, 1), (3, 2)` the fold
selects the first minimal one, index 1, not the equal-cost index 2. -/
theorem C9_witness :
    selectFold [(((5:ℚ):Dist), 0), (((3:ℚ):Dist), 1), (((3:ℚ):Dist), 2)] (⊤, -1) =
      (((3:ℚ):Dist), 1) :=
  C9_deterministic_first_min.2.2.1 [(((5:ℚ):Dist), 0)] (((3:ℚ):Dist), 1)
    [(((3:ℚ):Dist), 2)] (⊤, -1)
    (by
      intro q hq
      rw [List.mem_singleton] at hq
      subst hq
      exact WithTop.coe_lt_coe.mpr (by norm_num))
    (by
      intro q hq
      rw [List.mem_singleton] at hq
      subst hq
      exact le_rfl)
    (WithTop.coe_lt_top 3)

/-- C10: the recursion of `dp` terminates: every recursive call on a
reachable state (`last` in `visited`) clears the bit of `last`, so the
visited cardinality strictly decreases, and states whose visited set no
longer contains the start bottom out with no viable candidate,
returning `(inf, -1)` — both for the memo-free value and for the
memoized `dp` itself. -/
theorem C10_termination_structure :
    (∀ (v : Finset ℕ) (l c : ℕ), c ∈ v → c ≠ l → l ∈ v →
      toggle v l = v.erase l ∧ c ∈ toggle v l ∧ (toggle v l).card < v.card) ∧
    (∀ (dm : List (List Dist)) (s n : ℕ) (v : Finset ℕ) (l : ℕ), s ∉ v → l ∈ v →
      dpPure dm s n v l = (⊤, -1)) ∧
    (∀ (dm : List (List Dist)) (s n fuel : ℕ) (memo : Memo) (v : Finset ℕ) (l : ℕ),
      Good dm s n memo → muDp v l < fuel → s ∉ v → l ∈ v →
      (dp dm s n fuel memo v l).2 = (⊤, -1)) := by
  refine ⟨?_, ?_, ?_⟩
  · intro v l c hc hcl hl
    have ht : toggle v l = v.erase l := by rw [toggle, if_pos hl]
    refine ⟨ht, ?_, ?_⟩
    · rw [ht]
      exact Finset.mem_erase.mpr ⟨hcl, hc⟩
    · rw [ht]
      exact Finset.card_erase_lt_of_mem hl
  · intro dm s n v l hs hl
    exact dpPure_no_start dm s n v.card v l le_rfl hs hl
  · intro dm s n fuel memo v l hG hmu hs hl
    rw [(dp_correct dm s n fuel v l memo hmu hG).1]
    exact dpPure_no_start dm s n v.card v l le_rfl hs hl

/-- C10 witness: a concrete reachable state without the start bit. -/
theorem C10_witness :
    toggle ({1, 2} : Finset ℕ) 2 = ({1, 2} : Finset ℕ).erase 2 ∧
    (1 : ℕ) ∈ toggle ({1, 2} : Finset ℕ) 2 ∧
    (toggle ({1, 2} : Finset ℕ) 2).card < ({1, 2} : Finset ℕ).card ∧
    dpPure [] 0 3 ({1, 2} : Finset ℕ) 2 = (⊤, -1) ∧
    (dp [] 0 3 5 [] ({1, 2} : Finset ℕ) 2).2 = (⊤, -1) := by
  obtain ⟨h1, h2, h3⟩ := C10_termination_structure.1 {1, 2} 2 1 (by decide) (by decide)
    (by decide)
  exact ⟨h1, h2, h3,
    C10_termination_structure.2.1 [] 0 3 {1, 2} 2 (by decide) (by decide),
    C10_termination_structure.2.2 [] 0 3 5 [] {1, 2} 2 good_nil (by decide) (by decide)
      (by decide)⟩

end Logiq
